import Mathlib

/-!
Verification development for the checkerchain miner scoring core
(`checkerchain/miner/forward.py`).

The two Python functions under study are `get_overall_score` (pure
aggregation of a ten-criterion breakdown into one bounded overall score)
and the async `forward` orchestrator (cache partition, a first wave of
concurrently gathered oracle calls, one retry wave, and a fixed fallback
score of 50.0).

Modelling conventions:
* Numeric scores are embedded as exact rationals (`ℚ`); the Python code
  computes with IEEE floats, which we idealise as exact arithmetic.
* `miner_preds` (the module-level cache dict) is an explicit association
  list threaded through the orchestrator; a write prepends, and
  `List.lookup` returns the newest binding, which matches dict overwrite
  observationally.
* `fetch_product_data` is modelled as a pure predicate `f : ProductId → Bool`
  (the external service answers identically on repeated calls).
* The oracle `generate_review_score` is modelled as a function
  `o : ℕ → ℕ → OracleResult` from (wave index, task index within the wave)
  to the outcome of that particular call; `asyncio.gather` returns results
  positionally in task order, independent of completion order, which is
  exactly what indexing calls by task position captures.
* Each invocation log (`fetchCalls`, `oracleCalls`) records the external
  calls the orchestrator makes, one entry per call.
-/

namespace CheckerChain

abbrev ProductId := String

abbrev Score := ℚ

abbrev Cache := List (ProductId × Score)

/-- The ten integer criteria of `ScoreBreakdown` (miner/llm.py), in
declaration order, which is also the iteration order of
`ScoreBreakdown.model_fields.keys()`. -/
structure ScoreBreakdown where
  project : ℤ
  userbase : ℤ
  utility : ℤ
  security : ℤ
  team : ℤ
  tokenomics : ℤ
  marketing : ℤ
  roadmap : ℤ
  clarity : ℤ
  partnerships : ℤ
deriving DecidableEq, Repr

/-- Structured oracle output schema `ReviewScoreSchema` (miner/llm.py). -/
structure ReviewScoreSchema where
  product : String
  overall_score : ℤ
  breakdown : ScoreBreakdown
deriving DecidableEq, Repr

/-- The value handed to `get_overall_score`: either an actual
`ReviewScoreSchema` instance or anything else (the `isinstance` check in
the Python code fails on the latter). -/
inductive AIResult where
  | notSchema
  | schema (r : ReviewScoreSchema)
deriving DecidableEq, Repr

/-- Outcome of one awaited `generate_review_score` call as observed through
`asyncio.gather(..., return_exceptions=True)`: either an exception object or
a returned value. -/
inductive OracleResult where
  | exn
  | ok (r : AIResult)
deriving DecidableEq, Repr

/-- Normalization applied to each raw criterion value in
`get_overall_score`: values ≤ 2 are scaled by 1.1, values ≥ 9 by 0.98 and
capped at 10, the middle range is unchanged. -/
def normalize (v : ℤ) : ℚ :=
  if v ≤ 2 then (v : ℚ) * (11 / 10)
  else if 9 ≤ v then min 10 ((v : ℚ) * (49 / 50))
  else (v : ℚ)

/-- The breakdown's criteria paired with the fixed weight table of
`get_overall_score`, in field-declaration order. -/
def weightedEntries (b : ScoreBreakdown) : List (ℤ × ℚ) :=
  [(b.project, 11 / 10), (b.userbase, 9 / 10), (b.utility, 6 / 5),
   (b.security, 17 / 10), (b.team, 2 / 5), (b.tokenomics, 11 / 10),
   (b.marketing, 3 / 2), (b.roadmap, 1), (b.clarity, 2 / 5),
   (b.partnerships, 7 / 10)]

/-- The weighted sum of normalized criteria (`overall_score` before the
clamp and the rounding). -/
def weightedTotal (b : ScoreBreakdown) : ℚ :=
  ((weightedEntries b).map (fun p => normalize p.1 * p.2)).sum

/-- Rounding of a rational to the nearest integer, ties to even, which is
the rounding Python's built-in `round` performs. -/
def pyRound (x : ℚ) : ℤ :=
  if x - ⌊x⌋ < 1 / 2 then ⌊x⌋
  else if 1 / 2 < x - ⌊x⌋ then ⌊x⌋ + 1
  else if 2 ∣ ⌊x⌋ then ⌊x⌋ else ⌊x⌋ + 1

/-- Rounding to two decimal places, `round(x, 2)`. -/
def round2 (x : ℚ) : ℚ :=
  (pyRound (x * 100) : ℚ) / 100

/-- Embedding of `get_overall_score` (forward.py): `None` unless the
argument is a `ReviewScoreSchema`; otherwise the weighted sum of normalized
criteria, clamped to [0, 100] and rounded to two decimal places. -/
def get_overall_score : AIResult → Option ℚ
  | .notSchema => none
  | .schema r => some (round2 (max 0 (min 100 (weightedTotal r.breakdown))))

/-- Normalization rule written from the specification text (§4.4): `v*1.1`
if `v ≤ 2`, `min(10, v*0.98)` if `v ≥ 9`, else `v` unchanged. -/
def normSpec (v : ℤ) : ℚ :=
  if v ≤ 2 then (v : ℚ) * (11 / 10)
  else if 9 ≤ v then min 10 ((v : ℚ) * (49 / 50))
  else (v : ℚ)

/-- A breakdown all of whose criteria are the same value `v`. -/
def constBreakdown (v : ℤ) : ScoreBreakdown :=
  ⟨v, v, v, v, v, v, v, v, v, v⟩

/-- The weighted sum of the specification's reference aggregation, its
weight table listed in the spec's display order. -/
def specWeightedSum (b : ScoreBreakdown) : ℚ :=
  normSpec b.project * (11 / 10) + normSpec b.marketing * (3 / 2) +
  normSpec b.userbase * (9 / 10) + normSpec b.roadmap * 1 +
  normSpec b.utility * (6 / 5) + normSpec b.clarity * (2 / 5) +
  normSpec b.security * (17 / 10) + normSpec b.partnerships * (7 / 10) +
  normSpec b.team * (2 / 5) + normSpec b.tokenomics * (11 / 10)

/-- Reference aggregation written from the specification text (§4.4):
`clamp(Σ(normalized_i * weight_i), 0, 100)`, rounded to 2 decimal places. -/
def aggregate_spec (b : ScoreBreakdown) : ℚ :=
  round2 (max 0 (min 100 (specWeightedSum b)))

/-- Validity of a breakdown per the data model: every criterion in [0, 10]. -/
def validBreakdown (b : ScoreBreakdown) : Prop :=
  (0 ≤ b.project ∧ b.project ≤ 10) ∧ (0 ≤ b.userbase ∧ b.userbase ≤ 10) ∧
  (0 ≤ b.utility ∧ b.utility ≤ 10) ∧ (0 ≤ b.security ∧ b.security ≤ 10) ∧
  (0 ≤ b.team ∧ b.team ≤ 10) ∧ (0 ≤ b.tokenomics ∧ b.tokenomics ≤ 10) ∧
  (0 ≤ b.marketing ∧ b.marketing ≤ 10) ∧ (0 ≤ b.roadmap ∧ b.roadmap ≤ 10) ∧
  (0 ≤ b.clarity ∧ b.clarity ≤ 10) ∧ (0 ≤ b.partnerships ∧ b.partnerships ≤ 10)

instance (b : ScoreBreakdown) : Decidable (validBreakdown b) := by
  unfold validBreakdown; infer_instance

lemma pyRound_ge_floor (x : ℚ) : ⌊x⌋ ≤ pyRound x := by
  unfold pyRound
  split_ifs <;> omega

lemma pyRound_le {x : ℚ} {n : ℤ} (h : x ≤ (n : ℚ)) : pyRound x ≤ n := by
  have hfl : ⌊x⌋ ≤ n := by
    have := Int.floor_le_floor h
    simpa using this
  unfold pyRound
  split_ifs with h1 h2 h3
  · exact hfl
  · have hx : (⌊x⌋ : ℚ) < x := by linarith
    have : (⌊x⌋ : ℚ) < (n : ℚ) := lt_of_lt_of_le hx h
    have : ⌊x⌋ < n := by exact_mod_cast this
    omega
  · exact hfl
  · have hx : (⌊x⌋ : ℚ) < x := by
      have hr : x - (⌊x⌋ : ℚ) = 1 / 2 := le_antisymm (not_lt.mp h2) (not_lt.mp h1)
      linarith
    have : (⌊x⌋ : ℚ) < (n : ℚ) := lt_of_lt_of_le hx h
    have : ⌊x⌋ < n := by exact_mod_cast this
    omega

lemma le_pyRound {x : ℚ} {n : ℤ} (h : (n : ℚ) ≤ x) : n ≤ pyRound x := by
  have hfl : n ≤ ⌊x⌋ := by
    have := Int.floor_le_floor h
    simpa using this
  exact le_trans hfl (pyRound_ge_floor x)

lemma round2_nonneg {x : ℚ} (h : 0 ≤ x) : 0 ≤ round2 x := by
  unfold round2
  have h0 : (0 : ℤ) ≤ pyRound (x * 100) := le_pyRound (by push_cast; linarith)
  have : (0 : ℚ) ≤ (pyRound (x * 100) : ℚ) := by exact_mod_cast h0
  linarith

lemma round2_le_100 {x : ℚ} (h : x ≤ 100) : round2 x ≤ 100 := by
  unfold round2
  have h0 : pyRound (x * 100) ≤ (10000 : ℤ) := pyRound_le (by push_cast; linarith)
  have : (pyRound (x * 100) : ℚ) ≤ (10000 : ℚ) := by exact_mod_cast h0
  linarith

lemma normalize_nonneg {v : ℤ} (h : 0 ≤ v) : 0 ≤ normalize v := by
  have hv : (0 : ℚ) ≤ (v : ℚ) := by exact_mod_cast h
  unfold normalize
  split_ifs with h1 h2
  · nlinarith
  · exact le_min (by norm_num) (by nlinarith)
  · exact hv

lemma normalize_le_ten {v : ℤ} (h : v ≤ 10) : normalize v ≤ 10 := by
  have hv : (v : ℚ) ≤ 10 := by exact_mod_cast h
  unfold normalize
  split_ifs with h1 h2
  · have : (v : ℚ) ≤ 2 := by exact_mod_cast h1
    linarith
  · exact min_le_left _ _
  · exact hv

lemma weightedTotal_eq_specWeightedSum (b : ScoreBreakdown) :
    weightedTotal b = specWeightedSum b := by
  simp only [weightedTotal, weightedEntries, specWeightedSum, List.map_cons,
    List.map_nil, List.sum_cons, List.sum_nil, normSpec, normalize]
  ring

lemma weightedTotal_nonneg {b : ScoreBreakdown} (h : validBreakdown b) :
    0 ≤ weightedTotal b := by
  obtain ⟨h1, h2, h3, h4, h5, h6, h7, h8, h9, h10⟩ := h
  simp only [weightedTotal, weightedEntries, List.map_cons, List.map_nil,
    List.sum_cons, List.sum_nil]
  have n1 := normalize_nonneg h1.1
  have n2 := normalize_nonneg h2.1
  have n3 := normalize_nonneg h3.1
  have n4 := normalize_nonneg h4.1
  have n5 := normalize_nonneg h5.1
  have n6 := normalize_nonneg h6.1
  have n7 := normalize_nonneg h7.1
  have n8 := normalize_nonneg h8.1
  have n9 := normalize_nonneg h9.1
  have n10 := normalize_nonneg h10.1
  linarith

lemma weightedTotal_le_100 {b : ScoreBreakdown} (h : validBreakdown b) :
    weightedTotal b ≤ 100 := by
  obtain ⟨h1, h2, h3, h4, h5, h6, h7, h8, h9, h10⟩ := h
  simp only [weightedTotal, weightedEntries, List.map_cons, List.map_nil,
    List.sum_cons, List.sum_nil]
  have n1 := normalize_le_ten h1.2
  have n2 := normalize_le_ten h2.2
  have n3 := normalize_le_ten h3.2
  have n4 := normalize_le_ten h4.2
  have n5 := normalize_le_ten h5.2
  have n6 := normalize_le_ten h6.2
  have n7 := normalize_le_ten h7.2
  have n8 := normalize_le_ten h8.2
  have n9 := normalize_le_ten h9.2
  have n10 := normalize_le_ten h10.2
  linarith

lemma clamp_bounds (x : ℚ) : 0 ≤ max 0 (min 100 x) ∧ max 0 (min 100 x) ≤ 100 :=
  ⟨le_max_left _ _, max_le (by norm_num) (min_le_left _ _)⟩

lemma get_overall_score_schema (r : ReviewScoreSchema) :
    get_overall_score (.schema r) =
      some (round2 (max 0 (min 100 (weightedTotal r.breakdown)))) := rfl

lemma get_overall_score_bounds {a : AIResult} {s : ℚ}
    (h : get_overall_score a = some s) : 0 ≤ s ∧ s ≤ 100 := by
  cases a with
  | notSchema => simp [get_overall_score] at h
  | schema r =>
    simp only [get_overall_score, Option.some.injEq] at h
    subst h
    obtain ⟨hl, hu⟩ := clamp_bounds (weightedTotal r.breakdown)
    exact ⟨round2_nonneg hl, round2_le_100 hu⟩

/-- Mutable state of the `forward` orchestrator during processing of the
first wave of gathered results: the `predictions` slots, the `miner_preds`
cache, the queued `retry_indices` triples `(i, product_id, task_index)`
and the `fetch_product_data` calls made while queueing retries. -/
structure Wave1State where
  preds : List (Option Score)
  cache : Cache
  retries : List (ℕ × ProductId × ℕ)
  procFetches : List ProductId

/-- State during processing of the retry wave: the `predictions` slots and
the `miner_preds` cache. -/
structure MinerState where
  preds : List (Option Score)
  cache : Cache

/-- The failure path of the first-wave result loop: `fetch_product_data`
is called again and, when the product is (still) found, a retry task is
queued; otherwise the item is dropped with its slot left as `None`. -/
def failBranch (f : ProductId → Bool) (st : Wave1State) (i : ℕ)
    (id : ProductId) (k : ℕ) : Wave1State :=
  if f id then
    { st with procFetches := st.procFetches ++ [id],
              retries := st.retries ++ [(i, id, k)] }
  else
    { st with procFetches := st.procFetches ++ [id] }

/-- The success path of the first-wave result loop: the slot at the
original index receives the score and the cache is updated. -/
def assignScore (st : Wave1State) (i : ℕ) (id : ProductId) (s : Score) :
    Wave1State :=
  { st with preds := st.preds.set i (some s), cache := (id, s) :: st.cache }

/-- One iteration of the first-wave result loop of `forward`: an exception
queues a retry; otherwise the score is computed and validated, an absent
or out-of-range score queues a retry, and a valid one is assigned. -/
def processFirstResult (f : ProductId → Bool) (st : Wave1State) (k i : ℕ)
    (id : ProductId) (res : OracleResult) : Wave1State :=
  match res with
  | .exn => failBranch f st i id k
  | .ok r =>
    match get_overall_score r with
    | none => failBranch f st i id k
    | some s =>
      if s < 0 ∨ 100 < s then failBranch f st i id k
      else assignScore st i id s

/-- The first-wave result loop: the `k`-th task's gathered result is
`o 0 k` (`asyncio.gather` returns results in task order). -/
def runWave1 (f : ProductId → Bool) (o : ℕ → ℕ → OracleResult) :
    ℕ → List (ℕ × ProductId) → Wave1State → Wave1State
  | _, [], st => st
  | k, (i, id) :: ts, st =>
      runWave1 f o (k + 1) ts (processFirstResult f st k i id (o 0 k))

/-- The score a retried item finally receives: its second oracle attempt's
validated score, or the fixed fallback 50.0 when the retry threw or its
score is absent or out of range. -/
def retryValue : OracleResult → Score
  | .exn => 50
  | .ok r =>
    match get_overall_score r with
    | none => 50
    | some s => if 0 ≤ s ∧ s ≤ 100 then s else 50

/-- The retry-wave result loop: every queued item ends with a score in its
slot and in the cache (either its retry score or the fallback 50.0). -/
def runWave2 (o : ℕ → ℕ → OracleResult) :
    ℕ → List (ℕ × ProductId × ℕ) → MinerState → MinerState
  | _, [], st => st
  | m, (i, id, _) :: rs, st =>
      runWave2 o (m + 1) rs
        ⟨st.preds.set i (some (retryValue (o 1 m))),
         (id, retryValue (o 1 m)) :: st.cache⟩

/-- The partition loop of `forward`, accumulating `product_ids`: position
`i` yields a task exactly when its id is uncached and
`fetch_product_data` finds the product. -/
def partitionAux (c : Cache) (f : ProductId → Bool) :
    ℕ → List ProductId → List (ℕ × ProductId)
  | _, [] => []
  | i, id :: rest =>
    if (List.lookup id c).isNone && f id then
      (i, id) :: partitionAux c f (i + 1) rest
    else partitionAux c f (i + 1) rest

/-- The task list built by the partition loop over the whole query. -/
def tasksOf (c : Cache) (f : ProductId → Bool) (q : List ProductId) :
    List (ℕ × ProductId) :=
  partitionAux c f 0 q

/-- The outcome of a first-wave task as classified by the result loop:
`some s` when the task's result passes the validation (no exception, a
schema value, score in range), `none` when the item must be retried. -/
def firstScore (res : OracleResult) : Option Score :=
  match res with
  | .exn => none
  | .ok r =>
    match get_overall_score r with
    | none => none
    | some s => if s < 0 ∨ 100 < s then none else some s

/-- The retry queue produced by the first-wave result loop, starting from
task index `k`: one entry per failed task whose second product lookup
still finds the product. -/
def retriesOf (f : ProductId → Bool) (o : ℕ → ℕ → OracleResult) :
    ℕ → List (ℕ × ProductId) → List (ℕ × ProductId × ℕ)
  | _, [] => []
  | k, (i, id) :: ts =>
    if (firstScore (o 0 k)).isNone && f id then
      (i, id, k) :: retriesOf f o (k + 1) ts
    else retriesOf f o (k + 1) ts

/-- The cache writes performed by the first-wave result loop, newest
first. -/
def wave1Writes (o : ℕ → ℕ → OracleResult) :
    ℕ → List (ℕ × ProductId) → Cache
  | _, [] => []
  | k, (_, id) :: ts =>
    match firstScore (o 0 k) with
    | some s => wave1Writes o (k + 1) ts ++ [(id, s)]
    | none => wave1Writes o (k + 1) ts

/-- The cache writes performed by the retry-wave loop, newest first. -/
def wave2Writes (o : ℕ → ℕ → OracleResult) :
    ℕ → List (ℕ × ProductId × ℕ) → Cache
  | _, [] => []
  | m, (_, id, _) :: rs =>
    wave2Writes o (m + 1) rs ++ [(id, retryValue (o 1 m))]

/-- Observable result of one `forward` batch: the response slots, the
cache after the batch, and the external calls made (`fetchCalls` lists
every `fetch_product_data` invocation, `oracleCalls` every
`generate_review_score` invocation as `(wave, original index, id)`). -/
structure ForwardResult where
  response : List (Option Score)
  cache : Cache
  fetchCalls : List ProductId
  oracleCalls : List (ℕ × ℕ × ProductId)

/-- Embedding of the `forward` orchestrator: partition the query against
the cache, gather the first wave of oracle calls over the uncached, found
ids, process results (queueing retries for failures and invalid scores),
gather the retry wave, and fall back to 50.0 for items that still fail.
The early return on an empty task list coincides with running the empty
waves. -/
def forward (c : Cache) (f : ProductId → Bool) (o : ℕ → ℕ → OracleResult)
    (q : List ProductId) : ForwardResult :=
  let preds0 := q.map (fun id => List.lookup id c)
  let tasks := tasksOf c f q
  let st1 := runWave1 f o 0 tasks ⟨preds0, c, [], []⟩
  let st2 := runWave2 o 0 st1.retries ⟨st1.preds, st1.cache⟩
  { response := st2.preds
    cache := st2.cache
    fetchCalls := q.filter (fun id => (List.lookup id c).isNone) ++ st1.procFetches
    oracleCalls := tasks.map (fun p => (0, p.1, p.2)) ++
      st1.retries.map (fun r => (1, r.1, r.2.1)) }

lemma failBranch_preds (f : ProductId → Bool) (st : Wave1State) (i : ℕ)
    (id : ProductId) (k : ℕ) : (failBranch f st i id k).preds = st.preds := by
  unfold failBranch; split_ifs <;> rfl

lemma failBranch_cache (f : ProductId → Bool) (st : Wave1State) (i : ℕ)
    (id : ProductId) (k : ℕ) : (failBranch f st i id k).cache = st.cache := by
  unfold failBranch; split_ifs <;> rfl

lemma failBranch_retries (f : ProductId → Bool) (st : Wave1State) (i : ℕ)
    (id : ProductId) (k : ℕ) :
    (failBranch f st i id k).retries =
      st.retries ++ (if f id then [(i, id, k)] else []) := by
  unfold failBranch; split_ifs <;> simp

lemma failBranch_procFetches (f : ProductId → Bool) (st : Wave1State) (i : ℕ)
    (id : ProductId) (k : ℕ) :
    (failBranch f st i id k).procFetches = st.procFetches ++ [id] := by
  unfold failBranch; split_ifs <;> rfl

lemma processFirstResult_eq (f : ProductId → Bool) (st : Wave1State) (k i : ℕ)
    (id : ProductId) (res : OracleResult) :
    processFirstResult f st k i id res =
      match firstScore res with
      | some s => assignScore st i id s
      | none => failBranch f st i id k := by
  cases res with
  | exn => rfl
  | ok r =>
    cases hg : get_overall_score r with
    | none => simp [processFirstResult, firstScore, hg]
    | some s =>
      by_cases hs : s < 0 ∨ 100 < s <;>
        simp [processFirstResult, firstScore, hg, hs]

lemma firstScore_bounds {res : OracleResult} {s : ℚ}
    (h : firstScore res = some s) : 0 ≤ s ∧ s ≤ 100 := by
  cases res with
  | exn => simp [firstScore] at h
  | ok r =>
    cases hg : get_overall_score r with
    | none => simp [firstScore, hg] at h
    | some t =>
      simp only [firstScore, hg] at h
      split_ifs at h with ht
      push_neg at ht
      obtain rfl : t = s := by simpa using h
      exact ht

lemma retryValue_bounds (res : OracleResult) :
    0 ≤ retryValue res ∧ retryValue res ≤ 100 := by
  cases res with
  | exn => norm_num [retryValue]
  | ok r =>
    cases hg : get_overall_score r with
    | none => norm_num [retryValue, hg]
    | some s =>
      simp only [retryValue, hg]
      split_ifs with hs
      · exact hs
      · norm_num

lemma runWave1_preds_length (f : ProductId → Bool) (o : ℕ → ℕ → OracleResult) :
    ∀ (ts : List (ℕ × ProductId)) (k : ℕ) (st : Wave1State),
    (runWave1 f o k ts st).preds.length = st.preds.length := by
  intro ts
  induction ts with
  | nil => intro k st; rfl
  | cons t ts ih =>
    intro k st
    obtain ⟨i, id⟩ := t
    rw [runWave1, ih]
    rw [processFirstResult_eq]
    cases firstScore (o 0 k) with
    | none => rw [failBranch_preds]
    | some s => simp [assignScore]

lemma processFirstResult_preds_ne (f : ProductId → Bool) (st : Wave1State)
    (k i : ℕ) (id : ProductId) (res : OracleResult) {j : ℕ} (h : i ≠ j) :
    (processFirstResult f st k i id res).preds[j]? = st.preds[j]? := by
  rw [processFirstResult_eq]
  cases firstScore res with
  | none => rw [failBranch_preds]
  | some s => simp [assignScore, List.getElem?_set_ne h]

lemma runWave1_preds_untouched (f : ProductId → Bool)
    (o : ℕ → ℕ → OracleResult) :
    ∀ (ts : List (ℕ × ProductId)) (k : ℕ) (st : Wave1State) (j : ℕ),
    j ∉ ts.map Prod.fst →
    (runWave1 f o k ts st).preds[j]? = st.preds[j]? := by
  intro ts
  induction ts with
  | nil => intro k st j _; rfl
  | cons t ts ih =>
    intro k st j hj
    obtain ⟨i, id⟩ := t
    simp only [List.map_cons, List.mem_cons, not_or] at hj
    rw [runWave1, ih _ _ _ hj.2, processFirstResult_preds_ne]
    exact fun h => hj.1 h.symm

lemma runWave1_preds_at (f : ProductId → Bool) (o : ℕ → ℕ → OracleResult) :
    ∀ (ts₁ : List (ℕ × ProductId)) (i : ℕ) (id : ProductId)
      (ts₂ : List (ℕ × ProductId)) (k : ℕ) (st : Wave1State),
    i ∉ ts₁.map Prod.fst → i ∉ ts₂.map Prod.fst → i < st.preds.length →
    (runWave1 f o k (ts₁ ++ (i, id) :: ts₂) st).preds[i]? =
      match firstScore (o 0 (k + ts₁.length)) with
      | some s => some (some s)
      | none => st.preds[i]? := by
  intro ts₁
  induction ts₁ with
  | nil =>
    intro i id ts₂ k st _ h2 hlen
    simp only [List.nil_append, List.length_nil, Nat.add_zero]
    rw [runWave1, runWave1_preds_untouched f o ts₂ _ _ _ h2,
      processFirstResult_eq]
    cases firstScore (o 0 k) with
    | none => rw [failBranch_preds]
    | some s => simp [assignScore, List.getElem?_set_self hlen]
  | cons t ts₁ ih =>
    intro i id ts₂ k st h1 h2 hlen
    obtain ⟨i', id'⟩ := t
    simp only [List.map_cons, List.mem_cons, not_or] at h1
    have hne : i' ≠ i := fun h => h1.1 h.symm
    have harith : k + (ts₁.length + 1) = (k + 1) + ts₁.length := by omega
    simp only [List.cons_append, List.length_cons, harith]
    rw [runWave1,
      ih i id ts₂ (k + 1) _ h1.2 h2 (by
        rw [processFirstResult_eq]
        cases firstScore (o 0 k) with
        | none => rw [failBranch_preds]; exact hlen
        | some s => simpa [assignScore] using hlen),
      processFirstResult_preds_ne f st k i' id' (o 0 k) hne]

lemma runWave1_retries (f : ProductId → Bool) (o : ℕ → ℕ → OracleResult) :
    ∀ (ts : List (ℕ × ProductId)) (k : ℕ) (st : Wave1State),
    (runWave1 f o k ts st).retries = st.retries ++ retriesOf f o k ts := by
  intro ts
  induction ts with
  | nil => intro k st; simp [runWave1, retriesOf]
  | cons t ts ih =>
    intro k st
    obtain ⟨i, id⟩ := t
    rw [runWave1, ih, processFirstResult_eq]
    cases hfs : firstScore (o 0 k) with
    | none =>
      rw [failBranch_retries]
      cases hf : f id <;>
        simp [retriesOf, hfs, hf]
    | some s =>
      simp [assignScore, retriesOf, hfs]

lemma runWave1_cache (f : ProductId → Bool) (o : ℕ → ℕ → OracleResult) :
    ∀ (ts : List (ℕ × ProductId)) (k : ℕ) (st : Wave1State),
    (runWave1 f o k ts st).cache = wave1Writes o k ts ++ st.cache := by
  intro ts
  induction ts with
  | nil => intro k st; simp [runWave1, wave1Writes]
  | cons t ts ih =>
    intro k st
    obtain ⟨i, id⟩ := t
    rw [runWave1, ih, processFirstResult_eq]
    cases hfs : firstScore (o 0 k) with
    | none =>
      rw [failBranch_cache]
      simp [wave1Writes, hfs]
    | some s =>
      simp [assignScore, wave1Writes, hfs]

lemma runWave1_procFetches_subset (f : ProductId → Bool)
    (o : ℕ → ℕ → OracleResult) :
    ∀ (ts : List (ℕ × ProductId)) (k : ℕ) (st : Wave1State) (x : ProductId),
    x ∈ (runWave1 f o k ts st).procFetches →
    x ∈ st.procFetches ∨ x ∈ ts.map Prod.snd := by
  intro ts
  induction ts with
  | nil => intro k st x hx; exact Or.inl hx
  | cons t ts ih =>
    intro k st x hx
    obtain ⟨i, id⟩ := t
    rw [runWave1] at hx
    rcases ih _ _ _ hx with h | h
    · rw [processFirstResult_eq] at h
      cases hfs : firstScore (o 0 k) with
      | none =>
        rw [hfs] at h
        rw [failBranch_procFetches] at h
        rcases List.mem_append.mp h with h | h
        · exact Or.inl h
        · right; simp at h; simp [h]
      | some s =>
        rw [hfs] at h
        exact Or.inl h
    · right; simp only [List.map_cons, List.mem_cons]; exact Or.inr h

lemma runWave2_preds_length (o : ℕ → ℕ → OracleResult) :
    ∀ (rs : List (ℕ × ProductId × ℕ)) (m : ℕ) (st : MinerState),
    (runWave2 o m rs st).preds.length = st.preds.length := by
  intro rs
  induction rs with
  | nil => intro m st; rfl
  | cons r rs ih =>
    intro m st
    obtain ⟨i, id, k⟩ := r
    rw [runWave2, ih]
    simp

lemma runWave2_preds_untouched (o : ℕ → ℕ → OracleResult) :
    ∀ (rs : List (ℕ × ProductId × ℕ)) (m : ℕ) (st : MinerState) (j : ℕ),
    j ∉ rs.map Prod.fst →
    (runWave2 o m rs st).preds[j]? = st.preds[j]? := by
  intro rs
  induction rs with
  | nil => intro m st j _; rfl
  | cons r rs ih =>
    intro m st j hj
    obtain ⟨i, id, k⟩ := r
    simp only [List.map_cons, List.mem_cons, not_or] at hj
    rw [runWave2, ih _ _ _ hj.2]
    exact List.getElem?_set_ne (fun h => hj.1 h.symm)

lemma runWave2_preds_at (o : ℕ → ℕ → OracleResult) :
    ∀ (rs₁ : List (ℕ × ProductId × ℕ)) (i : ℕ) (id : ProductId) (k0 : ℕ)
      (rs₂ : List (ℕ × ProductId × ℕ)) (m : ℕ) (st : MinerState),
    i ∉ rs₁.map Prod.fst → i ∉ rs₂.map Prod.fst → i < st.preds.length →
    (runWave2 o m (rs₁ ++ (i, id, k0) :: rs₂) st).preds[i]? =
      some (some (retryValue (o 1 (m + rs₁.length)))) := by
  intro rs₁
  induction rs₁ with
  | nil =>
    intro i id k0 rs₂ m st _ h2 hlen
    simp only [List.nil_append, List.length_nil, Nat.add_zero]
    rw [runWave2, runWave2_preds_untouched o rs₂ _ _ _ h2]
    simp [List.getElem?_set_self hlen]
  | cons r rs₁ ih =>
    intro i id k0 rs₂ m st h1 h2 hlen
    obtain ⟨i', id', k'⟩ := r
    simp only [List.map_cons, List.mem_cons, not_or] at h1
    have hne : i' ≠ i := fun h => h1.1 h.symm
    have harith : m + (rs₁.length + 1) = (m + 1) + rs₁.length := by omega
    simp only [List.cons_append, List.length_cons, harith]
    rw [runWave2, ih i id k0 rs₂ (m + 1) _ h1.2 h2 (by simpa using hlen)]

lemma runWave2_cache (o : ℕ → ℕ → OracleResult) :
    ∀ (rs : List (ℕ × ProductId × ℕ)) (m : ℕ) (st : MinerState),
    (runWave2 o m rs st).cache = wave2Writes o m rs ++ st.cache := by
  intro rs
  induction rs with
  | nil => intro m st; simp [runWave2, wave2Writes]
  | cons r rs ih =>
    intro m st
    obtain ⟨i, id, k⟩ := r
    rw [runWave2, ih]
    simp [wave2Writes]

lemma retriesOf_append (f : ProductId → Bool) (o : ℕ → ℕ → OracleResult) :
    ∀ (l₁ l₂ : List (ℕ × ProductId)) (k : ℕ),
    retriesOf f o k (l₁ ++ l₂) =
      retriesOf f o k l₁ ++ retriesOf f o (k + l₁.length) l₂ := by
  intro l₁
  induction l₁ with
  | nil => intro l₂ k; simp [retriesOf]
  | cons t l₁ ih =>
    intro l₂ k
    obtain ⟨i, id⟩ := t
    have harith : k + (l₁.length + 1) = (k + 1) + l₁.length := by omega
    simp only [List.cons_append, retriesOf, List.length_cons, harith]
    split_ifs with h <;> simp [ih]

lemma retriesOf_entry_mem (f : ProductId → Bool) (o : ℕ → ℕ → OracleResult) :
    ∀ (ts : List (ℕ × ProductId)) (k : ℕ) (p : ℕ × ProductId × ℕ),
    p ∈ retriesOf f o k ts → (p.1, p.2.1) ∈ ts ∧ f p.2.1 = true := by
  intro ts
  induction ts with
  | nil => intro k p hp; simp [retriesOf] at hp
  | cons t ts ih =>
    intro k p hp
    obtain ⟨i, id⟩ := t
    rw [retriesOf] at hp
    split_ifs at hp with h
    · rcases List.mem_cons.mp hp with h' | h'
      · subst h'
        simp only [Bool.and_eq_true] at h
        exact ⟨List.mem_cons_self _ _, h.2⟩
      · obtain ⟨hm, hf⟩ := ih _ _ h'
        exact ⟨List.mem_cons_of_mem _ hm, hf⟩
    · obtain ⟨hm, hf⟩ := ih _ _ hp
      exact ⟨List.mem_cons_of_mem _ hm, hf⟩

lemma retriesOf_fst_sublist (f : ProductId → Bool) (o : ℕ → ℕ → OracleResult) :
    ∀ (ts : List (ℕ × ProductId)) (k : ℕ),
    ((retriesOf f o k ts).map Prod.fst).Sublist (ts.map Prod.fst) := by
  intro ts
  induction ts with
  | nil => intro k; simp [retriesOf]
  | cons t ts ih =>
    intro k
    obtain ⟨i, id⟩ := t
    rw [retriesOf]
    split_ifs with h
    · simpa using (ih (k + 1)).cons₂ i
    · simpa using (ih (k + 1)).cons i

lemma wave1Writes_mem (o : ℕ → ℕ → OracleResult) :
    ∀ (ts : List (ℕ × ProductId)) (k : ℕ) (p : ProductId × Score),
    p ∈ wave1Writes o k ts →
    p.1 ∈ ts.map Prod.snd ∧ 0 ≤ p.2 ∧ p.2 ≤ 100 := by
  intro ts
  induction ts with
  | nil => intro k p hp; simp [wave1Writes] at hp
  | cons t ts ih =>
    intro k p hp
    obtain ⟨i, id⟩ := t
    rw [wave1Writes] at hp
    rcases hfs : firstScore (o 0 k) with _ | s <;> rw [hfs] at hp
    · obtain ⟨hm, hb⟩ := ih _ _ hp
      exact ⟨by simp only [List.map_cons, List.mem_cons]; exact Or.inr hm, hb⟩
    · rcases List.mem_append.mp hp with h' | h'
      · obtain ⟨hm, hb⟩ := ih _ _ h'
        exact ⟨by simp only [List.map_cons, List.mem_cons]; exact Or.inr hm, hb⟩
      · simp only [List.mem_singleton] at h'
        subst h'
        exact ⟨by simp, firstScore_bounds hfs⟩

lemma wave1Writes_nil_of_exn (o : ℕ → ℕ → OracleResult)
    (hexn : ∀ k, o 0 k = .exn) :
    ∀ (ts : List (ℕ × ProductId)) (k : ℕ), wave1Writes o k ts = [] := by
  intro ts
  induction ts with
  | nil => intro k; rfl
  | cons t ts ih =>
    intro k
    obtain ⟨i, id⟩ := t
    rw [wave1Writes, hexn k]
    exact ih (k + 1)

lemma wave2Writes_mem (o : ℕ → ℕ → OracleResult) :
    ∀ (rs : List (ℕ × ProductId × ℕ)) (m : ℕ) (p : ProductId × Score),
    p ∈ wave2Writes o m rs →
    p.1 ∈ rs.map (fun r => r.2.1) ∧ 0 ≤ p.2 ∧ p.2 ≤ 100 := by
  intro rs
  induction rs with
  | nil => intro m p hp; simp [wave2Writes] at hp
  | cons r rs ih =>
    intro m p hp
    obtain ⟨i, id, k⟩ := r
    rw [wave2Writes] at hp
    rcases List.mem_append.mp hp with h' | h'
    · obtain ⟨hm, hb⟩ := ih _ _ h'
      exact ⟨by simp only [List.map_cons, List.mem_cons]; exact Or.inr hm, hb⟩
    · simp only [List.mem_singleton] at h'
      subst h'
      exact ⟨by simp, retryValue_bounds _⟩

lemma wave2Writes_id_mem (o : ℕ → ℕ → OracleResult) :
    ∀ (rs : List (ℕ × ProductId × ℕ)) (m : ℕ) (p : ℕ × ProductId × ℕ),
    p ∈ rs → p.2.1 ∈ (wave2Writes o m rs).map Prod.fst := by
  intro rs
  induction rs with
  | nil => intro m p hp; simp at hp
  | cons r rs ih =>
    intro m p hp
    obtain ⟨i, id, k⟩ := r
    rw [wave2Writes]
    rcases List.mem_cons.mp hp with h' | h'
    · subst h'; simp
    · simp only [List.map_append, List.mem_append]
      exact Or.inl (ih _ _ h')

lemma wave2Writes_all_50 (o : ℕ → ℕ → OracleResult)
    (hexn : ∀ k, o 1 k = .exn) :
    ∀ (rs : List (ℕ × ProductId × ℕ)) (m : ℕ) (p : ProductId × Score),
    p ∈ wave2Writes o m rs → p.2 = 50 := by
  intro rs
  induction rs with
  | nil => intro m p hp; simp [wave2Writes] at hp
  | cons r rs ih =>
    intro m p hp
    obtain ⟨i, id, k⟩ := r
    rw [wave2Writes] at hp
    rcases List.mem_append.mp hp with h' | h'
    · exact ih _ _ h'
    · simp only [List.mem_singleton] at h'
      subst h'
      simp [hexn m, retryValue]

lemma partitionAux_fst_ge (c : Cache) (f : ProductId → Bool) :
    ∀ (q : List ProductId) (n : ℕ) (p : ℕ × ProductId),
    p ∈ partitionAux c f n q → n ≤ p.1 := by
  intro q
  induction q with
  | nil => intro n p hp; simp [partitionAux] at hp
  | cons a q ih =>
    intro n p hp
    rw [partitionAux] at hp
    split_ifs at hp with h
    · rcases List.mem_cons.mp hp with h' | h'
      · subst h'; exact le_refl n
      · exact le_trans (Nat.le_succ n) (ih _ _ h')
    · exact le_trans (Nat.le_succ n) (ih _ _ hp)

lemma partitionAux_fst_nodup (c : Cache) (f : ProductId → Bool) :
    ∀ (q : List ProductId) (n : ℕ),
    ((partitionAux c f n q).map Prod.fst).Nodup := by
  intro q
  induction q with
  | nil => intro n; simp [partitionAux]
  | cons a q ih =>
    intro n
    rw [partitionAux]
    split_ifs with h
    · simp only [List.map_cons, List.nodup_cons]
      refine ⟨fun hn => ?_, ih (n + 1)⟩
      rcases List.mem_map.mp hn with ⟨p, hp, hfst⟩
      have := partitionAux_fst_ge c f q (n + 1) p hp
      omega
    · exact ih (n + 1)

lemma partitionAux_mem (c : Cache) (f : ProductId → Bool) :
    ∀ (q : List ProductId) (n i : ℕ) (id : ProductId),
    (i, id) ∈ partitionAux c f n q ↔
      ∃ j, j < q.length ∧ i = n + j ∧ q[j]? = some id ∧
        List.lookup id c = none ∧ f id = true := by
  intro q
  induction q with
  | nil =>
    intro n i id
    simp [partitionAux]
  | cons a q ih =>
    intro n i id
    rw [partitionAux]
    constructor
    · intro hp
      split_ifs at hp with h
      · rcases List.mem_cons.mp hp with h' | h'
        · obtain ⟨rfl, rfl⟩ := Prod.mk.injEq .. ▸ h'
          simp only [Bool.and_eq_true, Option.isNone_iff_eq_none] at h
          exact ⟨0, by simp, by omega, by simp, h.1, h.2⟩
        · obtain ⟨j, hj, hi, hq, hl, hf⟩ := (ih (n + 1) i id).mp h'
          exact ⟨j + 1, by simpa using hj, by omega, by simpa using hq, hl, hf⟩
      · obtain ⟨j, hj, hi, hq, hl, hf⟩ := (ih (n + 1) i id).mp hp
        exact ⟨j + 1, by simpa using hj, by omega, by simpa using hq, hl, hf⟩
    · rintro ⟨j, hj, hi, hq, hl, hf⟩
      cases j with
      | zero =>
        simp only [List.getElem?_cons_zero, Option.some.injEq] at hq
        subst hq
        have hcond : ((List.lookup a c).isNone && f a) = true := by
          simp [hl, hf]
        rw [if_pos hcond]
        have : i = n := by omega
        subst this
        exact List.mem_cons_self _ _
      | succ j' =>
        have hmem : (i, id) ∈ partitionAux c f (n + 1) q :=
          (ih (n + 1) i id).mpr
            ⟨j', by simpa using hj, by omega, by simpa using hq, hl, hf⟩
        split_ifs with h
        · exact List.mem_cons_of_mem _ hmem
        · exact hmem

lemma partitionAux_map_snd (c : Cache) (f : ProductId → Bool) :
    ∀ (q : List ProductId) (n : ℕ),
    (partitionAux c f n q).map Prod.snd =
      q.filter (fun x => (List.lookup x c).isNone && f x) := by
  intro q
  induction q with
  | nil => intro n; simp [partitionAux]
  | cons a q ih =>
    intro n
    rw [partitionAux, List.filter_cons]
    split_ifs with h
    · simp only [List.map_cons, ih]
    · simp only [ih]

lemma tasksOf_mem (c : Cache) (f : ProductId → Bool) (q : List ProductId)
    (i : ℕ) (id : ProductId) :
    (i, id) ∈ tasksOf c f q ↔
      i < q.length ∧ q[i]? = some id ∧ List.lookup id c = none ∧
        f id = true := by
  rw [tasksOf, partitionAux_mem]
  constructor
  · rintro ⟨j, hj, hi, hq, hl, hf⟩
    have : i = j := by omega
    subst this
    exact ⟨hj, hq, hl, hf⟩
  · rintro ⟨hi, hq, hl, hf⟩
    exact ⟨i, hi, by omega, hq, hl, hf⟩

lemma tasksOf_fst_nodup (c : Cache) (f : ProductId → Bool)
    (q : List ProductId) : ((tasksOf c f q).map Prod.fst).Nodup :=
  partitionAux_fst_nodup c f q 0

lemma nodup_fst_middle {α β : Type} {l₁ l₂ : List (α × β)} {a : α × β}
    (h : (((l₁ ++ a :: l₂).map Prod.fst)).Nodup) :
    a.1 ∉ l₁.map Prod.fst ∧ a.1 ∉ l₂.map Prod.fst := by
  rw [List.map_append, List.map_cons, List.nodup_append] at h
  obtain ⟨h1, h2, h3⟩ := h
  rw [List.nodup_cons] at h2
  exact ⟨fun hm => h3 hm (List.mem_cons_self _ _), h2.1⟩

lemma lookup_skip {c₁ c₂ : Cache} {a : ProductId}
    (h : a ∉ c₁.map Prod.fst) :
    List.lookup a (c₁ ++ c₂) = List.lookup a c₂ := by
  induction c₁ with
  | nil => simp
  | cons p c₁ ih =>
    obtain ⟨b, v⟩ := p
    simp only [List.map_cons, List.mem_cons, not_or] at h
    have hne : (a == b) = false := by
      simpa using h.1
    simp only [List.cons_append, List.lookup_cons, hne]
    exact ih h.2

lemma lookup_all_50 {w : Cache} {c : Cache} {a : ProductId}
    (hval : ∀ p ∈ w, p.2 = (50 : ℚ)) (hmem : a ∈ w.map Prod.fst) :
    List.lookup a (w ++ c) = some 50 := by
  induction w with
  | nil => simp at hmem
  | cons p w ih =>
    obtain ⟨b, v⟩ := p
    rcases hb : (a == b) with _ | _
    · have hm' : a ∈ w.map Prod.fst := by
        rcases List.mem_cons.mp hmem with h' | h'
        · exact absurd h' (by simpa using hb)
        · exact h'
      simp only [List.cons_append, List.lookup_cons, hb]
      exact ih (fun p hp => hval p (List.mem_cons_of_mem _ hp)) hm'
    · simp only [List.cons_append, List.lookup_cons, hb]
      have := hval (b, v) (List.mem_cons_self _ _)
      simpa using this

lemma lookup_mem {c : Cache} {a : ProductId} {s : Score}
    (h : List.lookup a c = some s) : (a, s) ∈ c := by
  induction c with
  | nil => simp at h
  | cons p c ih =>
    obtain ⟨b, v⟩ := p
    rcases hb : (a == b) with _ | _ <;>
      simp only [List.lookup_cons, hb] at h
    · exact List.mem_cons_of_mem _ (ih h)
    · obtain rfl : v = s := by simpa using h
      have : a = b := by simpa using hb
      subst this
      exact List.mem_cons_self _ _

lemma runWave1_preds_mem (f : ProductId → Bool) (o : ℕ → ℕ → OracleResult) :
    ∀ (ts : List (ℕ × ProductId)) (k : ℕ) (st : Wave1State)
      (os : Option Score),
    os ∈ (runWave1 f o k ts st).preds →
    os ∈ st.preds ∨ ∃ s, os = some s ∧ 0 ≤ s ∧ s ≤ 100 := by
  intro ts
  induction ts with
  | nil => intro k st os h; exact Or.inl h
  | cons t ts ih =>
    intro k st os h
    obtain ⟨i, id⟩ := t
    rw [runWave1] at h
    rcases ih _ _ _ h with h' | h'
    · rw [processFirstResult_eq] at h'
      cases hfs : firstScore (o 0 k) with
      | none =>
        rw [hfs, failBranch_preds] at h'
        exact Or.inl h'
      | some s =>
        rw [hfs] at h'
        simp only [assignScore] at h'
        rcases List.mem_or_eq_of_mem_set h' with h'' | h''
        · exact Or.inl h''
        · exact Or.inr ⟨s, h'', firstScore_bounds hfs⟩
    · exact Or.inr h'

lemma runWave2_preds_mem (o : ℕ → ℕ → OracleResult) :
    ∀ (rs : List (ℕ × ProductId × ℕ)) (m : ℕ) (st : MinerState)
      (os : Option Score),
    os ∈ (runWave2 o m rs st).preds →
    os ∈ st.preds ∨ ∃ s, os = some s ∧ 0 ≤ s ∧ s ≤ 100 := by
  intro rs
  induction rs with
  | nil => intro m st os h; exact Or.inl h
  | cons r rs ih =>
    intro m st os h
    obtain ⟨i, id, k⟩ := r
    rw [runWave2] at h
    rcases ih _ _ _ h with h' | h'
    · rcases List.mem_or_eq_of_mem_set h' with h'' | h''
      · exact Or.inl h''
      · exact Or.inr ⟨retryValue (o 1 m), h'', retryValue_bounds _⟩
    · exact Or.inr h'

lemma firstScore_ok_schema (r : ReviewScoreSchema) :
    firstScore (.ok (.schema r)) =
      some (round2 (max 0 (min 100 (weightedTotal r.breakdown)))) := by
  have hb := get_overall_score_bounds (get_overall_score_schema r)
  simp only [firstScore, get_overall_score_schema]
  rw [if_neg (by push_neg; exact hb)]

lemma processFirstResult_ok_schema (f : ProductId → Bool) (st : Wave1State)
    (k i : ℕ) (id : ProductId) (r : ReviewScoreSchema) :
    processFirstResult f st k i id (.ok (.schema r)) =
      assignScore st i id
        (round2 (max 0 (min 100 (weightedTotal r.breakdown)))) := by
  rw [processFirstResult_eq, firstScore_ok_schema]

/-- C3: the code's aggregation `get_overall_score` coincides with the
specification's reference aggregation `aggregate_spec` (normalize each
criterion, multiply by the fixed weight table, sum, clamp to [0, 100],
round to two decimals); in particular an all-5 breakdown scores 50.00,
an all-10 breakdown 98.00 and an all-1 breakdown 11.00. -/
theorem C3_aggregation_refines_spec :
    (∀ r : ReviewScoreSchema,
      get_overall_score (.schema r) = some (aggregate_spec r.breakdown)) ∧
    get_overall_score (.schema ⟨"p", 50, constBreakdown 5⟩) = some 50 ∧
    get_overall_score (.schema ⟨"p", 98, constBreakdown 10⟩) = some 98 ∧
    get_overall_score (.schema ⟨"p", 11, constBreakdown 1⟩) = some 11 := by
  refine ⟨fun r => ?_, ?_, ?_, ?_⟩
  · rw [get_overall_score_schema, aggregate_spec,
      weightedTotal_eq_specWeightedSum]
  · norm_num [get_overall_score, weightedTotal, weightedEntries, normalize,
      constBreakdown, round2, pyRound]
  · norm_num [get_overall_score, weightedTotal, weightedEntries, normalize,
      constBreakdown, round2, pyRound]
  · norm_num [get_overall_score, weightedTotal, weightedEntries, normalize,
      constBreakdown, round2, pyRound]

/-- C7: for a valid breakdown (every criterion in [0, 10]) the weight table
sums to exactly 10, the weighted sum of normalized criteria already lies in
[0, 100] before clamping, the clamp is the identity there, and the
aggregate result is in [0, 100]. -/
theorem C7_weighted_sum_in_range (b : ScoreBreakdown)
    (h : validBreakdown b) :
    ((weightedEntries b).map Prod.snd).sum = 10 ∧
    0 ≤ weightedTotal b ∧ weightedTotal b ≤ 100 ∧
    max 0 (min 100 (weightedTotal b)) = weightedTotal b ∧
    ∀ r : ReviewScoreSchema, r.breakdown = b →
      ∃ s, get_overall_score (.schema r) = some s ∧ 0 ≤ s ∧ s ≤ 100 := by
  have h0 := weightedTotal_nonneg h
  have h100 := weightedTotal_le_100 h
  refine ⟨by norm_num [weightedEntries], h0, h100, ?_, fun r _ => ?_⟩
  · rw [min_eq_right h100, max_eq_right h0]
  · exact ⟨_, get_overall_score_schema r,
      get_overall_score_bounds (get_overall_score_schema r)⟩

/-- C7 witness: the all-5 breakdown is valid and satisfies the bounds. -/
theorem C7_weighted_sum_in_range_witness :
    ((weightedEntries (constBreakdown 5)).map Prod.snd).sum = 10 ∧
    0 ≤ weightedTotal (constBreakdown 5) ∧
    weightedTotal (constBreakdown 5) ≤ 100 ∧
    max 0 (min 100 (weightedTotal (constBreakdown 5))) =
      weightedTotal (constBreakdown 5) ∧
    ∀ r : ReviewScoreSchema, r.breakdown = constBreakdown 5 →
      ∃ s, get_overall_score (.schema r) = some s ∧ 0 ≤ s ∧ s ≤ 100 :=
  C7_weighted_sum_in_range (constBreakdown 5) (by decide)

/-- C10: a breakdown outside [0, 10] is never rejected: every
`ReviewScoreSchema` result yields a score that passes the [0, 100]
validation (the clamp runs before the check), the aggregation returns
`None` exactly on non-schema input, the first-wave retry branch is taken
exactly for exceptions and non-schema results, any schema result is
assigned and cached on the first attempt, and an all-12 breakdown is
accepted with score 100. -/
theorem C10_out_of_range_accepted :
    (∀ r : ReviewScoreSchema,
      ∃ s, get_overall_score (.schema r) = some s ∧ 0 ≤ s ∧ s ≤ 100) ∧
    (∀ a : AIResult, get_overall_score a = none ↔ a = .notSchema) ∧
    (∀ res : OracleResult,
      firstScore res = none ↔ res = .exn ∨ res = .ok .notSchema) ∧
    (∀ (f : ProductId → Bool) (st : Wave1State) (k i : ℕ) (id : ProductId)
      (r : ReviewScoreSchema),
      ∃ s, processFirstResult f st k i id (.ok (.schema r)) =
        assignScore st i id s) ∧
    get_overall_score (.schema ⟨"p", 100, constBreakdown 12⟩) = some 100 := by
  refine ⟨fun r => ⟨_, get_overall_score_schema r,
      get_overall_score_bounds (get_overall_score_schema r)⟩,
    fun a => ?_, fun res => ?_, fun f st k i id r =>
      ⟨_, processFirstResult_ok_schema f st k i id r⟩, ?_⟩
  · cases a with
    | notSchema => simp [get_overall_score]
    | schema r => simp [get_overall_score]
  · cases res with
    | exn => simp [firstScore]
    | ok r =>
      cases r with
      | notSchema => simp [firstScore, get_overall_score]
      | schema rr => simp [firstScore_ok_schema]
  · norm_num [get_overall_score, weightedTotal, weightedEntries, normalize,
      constBreakdown, round2, pyRound]

lemma retriesOf_fst_subset (f : ProductId → Bool) (o : ℕ → ℕ → OracleResult)
    (ts : List (ℕ × ProductId)) (k : ℕ) {j : ℕ}
    (h : j ∈ (retriesOf f o k ts).map Prod.fst) : j ∈ ts.map Prod.fst :=
  (retriesOf_fst_sublist f o ts k).subset h

lemma tasksOf_fst_mem (c : Cache) (f : ProductId → Bool) (q : List ProductId)
    (j : ℕ) (hj : j < q.length) :
    j ∈ (tasksOf c f q).map Prod.fst ↔
      List.lookup q[j] c = none ∧ f q[j] = true := by
  constructor
  · intro h
    rcases List.mem_map.mp h with ⟨p, hp, hfst⟩
    obtain ⟨i, id⟩ := p
    simp only at hfst
    subst hfst
    obtain ⟨hi, hq, hl, hf⟩ := (tasksOf_mem c f q i id).mp hp
    rw [List.getElem?_eq_getElem hj] at hq
    obtain rfl : q[i] = id := by simpa using hq
    exact ⟨hl, hf⟩
  · rintro ⟨hl, hf⟩
    refine List.mem_map.mpr ⟨(j, q[j]), ?_, rfl⟩
    exact (tasksOf_mem c f q j q[j]).mpr
      ⟨hj, List.getElem?_eq_getElem hj, hl, hf⟩

lemma forward_response_length (c : Cache) (f : ProductId → Bool)
    (o : ℕ → ℕ → OracleResult) (q : List ProductId) :
    (forward c f o q).response.length = q.length := by
  simp only [forward]
  rw [runWave2_preds_length, runWave1_preds_length]
  simp

lemma forward_slot_untouched (c : Cache) (f : ProductId → Bool)
    (o : ℕ → ℕ → OracleResult) (q : List ProductId) (j : ℕ)
    (hj : j < q.length) (hnt : j ∉ (tasksOf c f q).map Prod.fst) :
    (forward c f o q).response[j]? = some (List.lookup q[j] c) := by
  simp only [forward]
  rw [runWave1_retries]
  rw [runWave2_preds_untouched, runWave1_preds_untouched]
  · simp [List.getElem?_eq_getElem hj]
  · exact hnt
  · simp only [List.nil_append]
    exact fun h => hnt (retriesOf_fst_subset f o _ 0 h)

lemma forward_slot_dispatched (c : Cache) (f : ProductId → Bool)
    (o : ℕ → ℕ → OracleResult) (q : List ProductId) (j : ℕ)
    (id : ProductId) (ts₁ ts₂ : List (ℕ × ProductId))
    (hdec : tasksOf c f q = ts₁ ++ (j, id) :: ts₂) :
    (forward c f o q).response[j]? =
      match firstScore (o 0 ts₁.length) with
      | some s => some (some s)
      | none =>
        some (some (retryValue (o 1 (retriesOf f o 0 ts₁).length))) := by
  have hmem : (j, id) ∈ tasksOf c f q := by
    rw [hdec]
    exact List.mem_append.mpr (Or.inr (List.mem_cons_self _ _))
  obtain ⟨hjq, hq, hl, hf⟩ := (tasksOf_mem c f q j id).mp hmem
  have hnd := tasksOf_fst_nodup c f q
  rw [hdec] at hnd
  obtain ⟨hn1, hn2⟩ := nodup_fst_middle (a := (j, id)) hnd
  have hretries : retriesOf f o 0 (ts₁ ++ (j, id) :: ts₂) =
      retriesOf f o 0 ts₁ ++
        retriesOf f o (0 + ts₁.length) ((j, id) :: ts₂) :=
    retriesOf_append f o ts₁ ((j, id) :: ts₂) 0
  have hlen1 : j < (q.map (fun id => List.lookup id c)).length := by
    simpa using hjq
  simp only [forward]
  rw [runWave1_retries, hdec, List.nil_append, hretries]
  cases hfs : firstScore (o 0 ts₁.length) with
  | some s =>
    have hcons : retriesOf f o (0 + ts₁.length) ((j, id) :: ts₂) =
        retriesOf f o (0 + ts₁.length + 1) ts₂ := by
      rw [retriesOf]
      rw [if_neg]
      simp [Nat.zero_add, hfs]
    rw [hcons]
    rw [runWave2_preds_untouched]
    · rw [runWave1_preds_at f o ts₁ j id ts₂ 0 _ hn1 hn2 hlen1]
      simp [Nat.zero_add, hfs]
    · intro hmem'
      rw [List.map_append] at hmem'
      rcases List.mem_append.mp hmem' with h' | h'
      · exact hn1 (retriesOf_fst_subset f o ts₁ 0 h')
      · exact hn2 (retriesOf_fst_subset f o ts₂ _ h')
  | none =>
    have hcons : retriesOf f o (0 + ts₁.length) ((j, id) :: ts₂) =
        (j, id, 0 + ts₁.length) :: retriesOf f o (0 + ts₁.length + 1) ts₂ := by
      rw [retriesOf]
      rw [if_pos]
      simp [Nat.zero_add, hfs, hf]
    rw [hcons]
    rw [runWave2_preds_at o (retriesOf f o 0 ts₁) j id (0 + ts₁.length)
      (retriesOf f o (0 + ts₁.length + 1) ts₂) 0 _
      (fun h => hn1 (retriesOf_fst_subset f o ts₁ 0 h))
      (fun h => hn2 (retriesOf_fst_subset f o ts₂ _ h))
      (by rw [runWave1_preds_length]; exact hlen1)]
    simp

lemma retryValue_of_fail {res : OracleResult} (h : firstScore res = none) :
    retryValue res = 50 := by
  cases res with
  | exn => rfl
  | ok r =>
    cases hg : get_overall_score r with
    | none => simp [retryValue, hg]
    | some s =>
      simp only [firstScore, hg] at h
      split_ifs at h with hs
      simp only [retryValue, hg]
      rw [if_neg]
      rintro ⟨h0, h100⟩
      rcases hs with h' | h' <;> linarith

lemma wave2Writes_append (o : ℕ → ℕ → OracleResult) :
    ∀ (rs₁ rs₂ : List (ℕ × ProductId × ℕ)) (m : ℕ),
    wave2Writes o m (rs₁ ++ rs₂) =
      wave2Writes o (m + rs₁.length) rs₂ ++ wave2Writes o m rs₁ := by
  intro rs₁
  induction rs₁ with
  | nil => intro rs₂ m; simp [wave2Writes]
  | cons r rs₁ ih =>
    intro rs₂ m
    obtain ⟨i, id, k⟩ := r
    have harith : m + (rs₁.length + 1) = (m + 1) + rs₁.length := by omega
    simp only [List.cons_append, wave2Writes, List.length_cons, harith,
      List.append_eq]
    rw [ih rs₂ (m + 1), List.append_assoc]

lemma retriesOf_decomp_fail (f : ProductId → Bool)
    (o : ℕ → ℕ → OracleResult) (ts₁ : List (ℕ × ProductId)) (j : ℕ)
    (id : ProductId) (ts₂ : List (ℕ × ProductId))
    (hfs : firstScore (o 0 ts₁.length) = none) (hf : f id = true) :
    retriesOf f o 0 (ts₁ ++ (j, id) :: ts₂) =
      retriesOf f o 0 ts₁ ++
        (j, id, ts₁.length) :: retriesOf f o (ts₁.length + 1) ts₂ := by
  rw [retriesOf_append, Nat.zero_add, retriesOf, if_pos]
  simp [hfs, hf]

lemma forward_cache_eq (c : Cache) (f : ProductId → Bool)
    (o : ℕ → ℕ → OracleResult) (q : List ProductId) :
    (forward c f o q).cache =
      wave2Writes o 0 (retriesOf f o 0 (tasksOf c f q)) ++
        (wave1Writes o 0 (tasksOf c f q) ++ c) := by
  simp only [forward]
  rw [runWave2_cache, runWave1_cache, runWave1_retries]
  simp

lemma forward_oracleCalls_eq (c : Cache) (f : ProductId → Bool)
    (o : ℕ → ℕ → OracleResult) (q : List ProductId) :
    (forward c f o q).oracleCalls =
      (tasksOf c f q).map (fun p => (0, p.1, p.2)) ++
        (retriesOf f o 0 (tasksOf c f q)).map (fun r => (1, r.1, r.2.1)) := by
  simp only [forward]
  rw [runWave1_retries]
  simp

lemma forward_fetchCalls_mem (c : Cache) (f : ProductId → Bool)
    (o : ℕ → ℕ → OracleResult) (q : List ProductId) (x : ProductId)
    (hx : x ∈ (forward c f o q).fetchCalls) :
    x ∈ q.filter (fun id => (List.lookup id c).isNone) ∨
      x ∈ (tasksOf c f q).map Prod.snd := by
  simp only [forward] at hx
  rcases List.mem_append.mp hx with h | h
  · exact Or.inl h
  · rcases runWave1_procFetches_subset f o _ 0 _ x h with h' | h'
    · simp at h'
    · exact Or.inr h'

/-- C2: the batch response has the same length as the query, and each
slot's value comes from that position's own pipeline: a cache hit is
copied into its slot, a not-found id leaves its slot absent, a dispatched
task's validated first-wave score lands at its original index, and a
still-failing task's retry outcome (retry score or fallback) lands at its
original index — the task and retry indices are determined by the batch
position alone, never by completion order (the model indexes each oracle
call by its wave and task position, which is how `asyncio.gather` hands
results back). -/
theorem C2_response_positional (c : Cache) (f : ProductId → Bool)
    (o : ℕ → ℕ → OracleResult) (q : List ProductId) (j : ℕ)
    (hj : j < q.length) :
    (forward c f o q).response.length = q.length ∧
    (∀ s, List.lookup q[j] c = some s →
      (forward c f o q).response[j]? = some (some s)) ∧
    (List.lookup q[j] c = none → f q[j] = false →
      (forward c f o q).response[j]? = some none) ∧
    (∀ ts₁ id ts₂, tasksOf c f q = ts₁ ++ (j, id) :: ts₂ →
      (∀ s, firstScore (o 0 ts₁.length) = some s →
        (forward c f o q).response[j]? = some (some s)) ∧
      (firstScore (o 0 ts₁.length) = none →
        (forward c f o q).response[j]? =
          some (some (retryValue (o 1 (retriesOf f o 0 ts₁).length))))) := by
  refine ⟨forward_response_length c f o q, fun s hs => ?_, fun hl hf => ?_,
    fun ts₁ id ts₂ hdec => ⟨fun s hfs => ?_, fun hfs => ?_⟩⟩
  · have hnt : j ∉ (tasksOf c f q).map Prod.fst := by
      rw [tasksOf_fst_mem c f q j hj]
      rintro ⟨hnone, -⟩
      rw [hs] at hnone
      exact absurd hnone (by simp)
    rw [forward_slot_untouched c f o q j hj hnt, hs]
  · have hnt : j ∉ (tasksOf c f q).map Prod.fst := by
      rw [tasksOf_fst_mem c f q j hj]
      rintro ⟨-, htrue⟩
      rw [hf] at htrue
      exact absurd htrue (by simp)
    rw [forward_slot_untouched c f o q j hj hnt, hl]
  · rw [forward_slot_dispatched c f o q j id ts₁ ts₂ hdec, hfs]
  · rw [forward_slot_dispatched c f o q j id ts₁ ts₂ hdec, hfs]

/-- C2 witness: a one-element batch whose id is cached at 42. -/
theorem C2_response_positional_witness :
    (forward [("A", (42 : ℚ))] (fun _ => true) (fun _ _ => .exn)
        ["A"]).response.length = (["A"] : List ProductId).length ∧
    (∀ s, List.lookup (["A"] : List ProductId)[0] [("A", (42 : ℚ))] = some s →
      (forward [("A", (42 : ℚ))] (fun _ => true) (fun _ _ => .exn)
        ["A"]).response[0]? = some (some s)) ∧
    (List.lookup (["A"] : List ProductId)[0] [("A", (42 : ℚ))] = none →
      (fun (_ : ProductId) => true) (["A"] : List ProductId)[0] = false →
      (forward [("A", (42 : ℚ))] (fun _ => true) (fun _ _ => .exn)
        ["A"]).response[0]? = some none) ∧
    (∀ ts₁ id ts₂,
      tasksOf [("A", (42 : ℚ))] (fun _ => true) ["A"] =
        ts₁ ++ (0, id) :: ts₂ →
      (∀ s, firstScore ((fun (_ _ : ℕ) => OracleResult.exn) 0 ts₁.length) =
          some s →
        (forward [("A", (42 : ℚ))] (fun _ => true) (fun _ _ => .exn)
          ["A"]).response[0]? = some (some s)) ∧
      (firstScore ((fun (_ _ : ℕ) => OracleResult.exn) 0 ts₁.length) = none →
        (forward [("A", (42 : ℚ))] (fun _ => true) (fun _ _ => .exn)
          ["A"]).response[0]? =
          some (some (retryValue ((fun (_ _ : ℕ) => OracleResult.exn) 1
            (retriesOf (fun _ => true) (fun _ _ => .exn) 0 ts₁).length))))) :=
  C2_response_positional [("A", (42 : ℚ))] (fun _ => true) (fun _ _ => .exn)
    ["A"] 0 (by norm_num)

/-- C1: if every product lookup for position `j` finds the product, then
slot `j` of the response is a numeric score, never absent.  When both of
the item's own attempts fail — each by an exception, a non-schema result
or an out-of-range score, while the other items of the batch may succeed
or fail arbitrarily — the fixed fallback 50.0 is assigned to that slot and
the write `(id, 50.0)` is recorded in the cache (a later write for a
duplicated id may shadow it under the dict's last-writer-wins lookup).
When moreover the oracle fails every call and the id is uncached (the
spec's `["D"]` scenario), the cache lookup for the id itself yields
50.0. -/
theorem C1_never_absent_fallback (c : Cache) (f : ProductId → Bool)
    (o : ℕ → ℕ → OracleResult) (q : List ProductId) (j : ℕ)
    (hj : j < q.length) (hf : f q[j] = true) :
    (∃ s, (forward c f o q).response[j]? = some (some s)) ∧
    (∀ ts₁ id ts₂, tasksOf c f q = ts₁ ++ (j, id) :: ts₂ →
      firstScore (o 0 ts₁.length) = none →
      firstScore (o 1 (retriesOf f o 0 ts₁).length) = none →
      (forward c f o q).response[j]? = some (some 50) ∧
      (id, (50 : ℚ)) ∈ (forward c f o q).cache) ∧
    ((∀ w k, o w k = OracleResult.exn) → List.lookup q[j] c = none →
      (forward c f o q).response[j]? = some (some 50) ∧
      List.lookup q[j] (forward c f o q).cache = some 50) := by
  refine ⟨?_, ?_, ?_⟩
  · cases hl : List.lookup q[j] c with
    | some s =>
      have hnt : j ∉ (tasksOf c f q).map Prod.fst := by
        rw [tasksOf_fst_mem c f q j hj]
        rintro ⟨hnone, -⟩
        rw [hl] at hnone
        exact absurd hnone (by simp)
      exact ⟨s, by rw [forward_slot_untouched c f o q j hj hnt, hl]⟩
    | none =>
      have hmem : (j, q[j]) ∈ tasksOf c f q :=
        (tasksOf_mem c f q j q[j]).mpr
          ⟨hj, List.getElem?_eq_getElem hj, hl, hf⟩
      obtain ⟨ts₁, ts₂, hdec⟩ := List.append_of_mem hmem
      cases hfs : firstScore (o 0 ts₁.length) with
      | some s =>
        exact ⟨s, by
          rw [forward_slot_dispatched c f o q j q[j] ts₁ ts₂ hdec, hfs]⟩
      | none =>
        exact ⟨retryValue (o 1 (retriesOf f o 0 ts₁).length), by
          rw [forward_slot_dispatched c f o q j q[j] ts₁ ts₂ hdec, hfs]⟩
  · intro ts₁ id ts₂ hdec hfs1 hfs2
    have hmem : (j, id) ∈ tasksOf c f q := by
      rw [hdec]
      exact List.mem_append.mpr (Or.inr (List.mem_cons_self _ _))
    obtain ⟨-, -, -, hfid⟩ := (tasksOf_mem c f q j id).mp hmem
    constructor
    · rw [forward_slot_dispatched c f o q j id ts₁ ts₂ hdec, hfs1,
        retryValue_of_fail hfs2]
    · rw [forward_cache_eq]
      refine List.mem_append.mpr (Or.inl ?_)
      rw [hdec, retriesOf_decomp_fail f o ts₁ j id ts₂ hfs1 hfid,
        wave2Writes_append o (retriesOf f o 0 ts₁) _ 0]
      refine List.mem_append.mpr (Or.inl ?_)
      rw [wave2Writes]
      refine List.mem_append.mpr (Or.inr ?_)
      simp only [Nat.zero_add]
      rw [retryValue_of_fail hfs2]
      exact List.mem_singleton.mpr rfl
  · intro hexn hl
    have hmem : (j, q[j]) ∈ tasksOf c f q :=
      (tasksOf_mem c f q j q[j]).mpr
        ⟨hj, List.getElem?_eq_getElem hj, hl, hf⟩
    obtain ⟨ts₁, ts₂, hdec⟩ := List.append_of_mem hmem
    have hfs : firstScore (o 0 ts₁.length) = none := by
      rw [hexn 0 ts₁.length]; rfl
    constructor
    · rw [forward_slot_dispatched c f o q j q[j] ts₁ ts₂ hdec, hfs]
      rw [hexn 1 (retriesOf f o 0 ts₁).length]
      rfl
    · rw [forward_cache_eq c f o q,
        wave1Writes_nil_of_exn o (fun k => hexn 0 k), List.nil_append]
      have hrmem : (j, q[j], ts₁.length) ∈ retriesOf f o 0 (tasksOf c f q) := by
        rw [hdec, retriesOf_decomp_fail f o ts₁ j q[j] ts₂ hfs hf]
        exact List.mem_append.mpr (Or.inr (List.mem_cons_self _ _))
      have hidmem := wave2Writes_id_mem o _ 0 _ hrmem
      exact lookup_all_50
        (fun p hp => wave2Writes_all_50 o (fun k => hexn 1 k) _ 0 p hp)
        hidmem

/-- C1 witness: the spec's batch `["D"]` with an oracle that fails every
call: the response is `[50.0]`, the fallback write is recorded, and the
cache holds `"D" ↦ 50.0`. -/
theorem C1_never_absent_fallback_witness :
    (∃ s, (forward [] (fun _ => true) (fun _ _ => .exn)
      ["D"]).response[0]? = some (some s)) ∧
    (∀ ts₁ id ts₂,
      tasksOf [] (fun _ => true) ["D"] = ts₁ ++ (0, id) :: ts₂ →
      firstScore ((fun (_ _ : ℕ) => OracleResult.exn) 0 ts₁.length) = none →
      firstScore ((fun (_ _ : ℕ) => OracleResult.exn) 1
        (retriesOf (fun _ => true) (fun _ _ => .exn) 0 ts₁).length) = none →
      (forward [] (fun _ => true) (fun _ _ => .exn)
        ["D"]).response[0]? = some (some 50) ∧
      (id, (50 : ℚ)) ∈
        (forward [] (fun _ => true) (fun _ _ => .exn) ["D"]).cache) ∧
    ((∀ w k, (fun (_ _ : ℕ) => OracleResult.exn) w k = OracleResult.exn) →
      List.lookup (["D"] : List ProductId)[0] ([] : Cache) = none →
      (forward [] (fun _ => true) (fun _ _ => .exn)
        ["D"]).response[0]? = some (some 50) ∧
      List.lookup (["D"] : List ProductId)[0]
        (forward [] (fun _ => true) (fun _ _ => .exn) ["D"]).cache =
          some 50) :=
  C1_never_absent_fallback [] (fun _ => true) (fun _ _ => .exn) ["D"] 0
    (by norm_num) rfl

lemma tasksOf_snd_mem (c : Cache) (f : ProductId → Bool)
    (q : List ProductId) (x : ProductId)
    (hx : x ∈ (tasksOf c f q).map Prod.snd) :
    List.lookup x c = none ∧ f x = true := by
  rcases List.mem_map.mp hx with ⟨p, hp, hsnd⟩
  obtain ⟨i, id⟩ := p
  simp only at hsnd
  subst hsnd
  obtain ⟨-, -, hl, hf⟩ := (tasksOf_mem c f q i id).mp hp
  exact ⟨hl, hf⟩

lemma retriesOf_id_mem_tasks_snd (f : ProductId → Bool)
    (o : ℕ → ℕ → OracleResult) (ts : List (ℕ × ProductId)) (k : ℕ)
    (p : ℕ × ProductId × ℕ) (hp : p ∈ retriesOf f o k ts) :
    p.2.1 ∈ ts.map Prod.snd := by
  obtain ⟨hm, -⟩ := retriesOf_entry_mem f o ts k p hp
  exact List.mem_map.mpr ⟨(p.1, p.2.1), hm, rfl⟩

/-- C6: an item whose product lookup comes back absent at partition time
gets an absent response slot, causes no oracle invocation for its id (in
either wave, so it is never retried), and leaves the cache entry for its
id unmodified. -/
theorem C6_not_found_absent (c : Cache) (f : ProductId → Bool)
    (o : ℕ → ℕ → OracleResult) (q : List ProductId) (j : ℕ)
    (hj : j < q.length) (hl : List.lookup q[j] c = none)
    (hf : f q[j] = false) :
    (forward c f o q).response[j]? = some none ∧
    (∀ e ∈ (forward c f o q).oracleCalls, e.2.2 ≠ q[j]) ∧
    List.lookup q[j] (forward c f o q).cache = none := by
  have hsnd : ∀ x, x ∈ (tasksOf c f q).map Prod.snd → x ≠ q[j] := by
    intro x hx hxq
    obtain ⟨-, hfx⟩ := tasksOf_snd_mem c f q x hx
    rw [hxq, hf] at hfx
    exact absurd hfx (by simp)
  refine ⟨?_, ?_, ?_⟩
  · have hnt : j ∉ (tasksOf c f q).map Prod.fst := by
      rw [tasksOf_fst_mem c f q j hj]
      rintro ⟨-, htrue⟩
      rw [hf] at htrue
      exact absurd htrue (by simp)
    rw [forward_slot_untouched c f o q j hj hnt, hl]
  · intro e he
    rw [forward_oracleCalls_eq] at he
    rcases List.mem_append.mp he with h | h
    · rcases List.mem_map.mp h with ⟨p, hp, rfl⟩
      exact hsnd p.2 (List.mem_map.mpr ⟨p, hp, rfl⟩)
    · rcases List.mem_map.mp h with ⟨r, hr, rfl⟩
      exact hsnd r.2.1 (retriesOf_id_mem_tasks_snd f o _ 0 r hr)
  · rw [forward_cache_eq]
    rw [lookup_skip, lookup_skip]
    · exact hl
    · intro hmem
      rcases List.mem_map.mp hmem with ⟨p, hp, hfst⟩
      obtain ⟨hm, -⟩ := wave1Writes_mem o _ 0 p hp
      exact hsnd p.1 hm hfst
    · intro hmem
      rcases List.mem_map.mp hmem with ⟨p, hp, hfst⟩
      obtain ⟨hm, -⟩ := wave2Writes_mem o _ 0 p hp
      rcases List.mem_map.mp hm with ⟨r, hr, hid⟩
      have := retriesOf_id_mem_tasks_snd f o _ 0 r hr
      rw [hid] at this
      exact hsnd p.1 this hfst

/-- C6 witness: a one-element batch whose id is uncached and not found. -/
theorem C6_not_found_absent_witness :
    (forward [] (fun _ => false) (fun _ _ => .exn)
      ["B"]).response[0]? = some none ∧
    (∀ e ∈ (forward [] (fun _ => false) (fun _ _ => .exn)
      ["B"]).oracleCalls, e.2.2 ≠ (["B"] : List ProductId)[0]) ∧
    List.lookup (["B"] : List ProductId)[0]
      (forward [] (fun _ => false) (fun _ _ => .exn) ["B"]).cache = none :=
  C6_not_found_absent [] (fun _ => false) (fun _ _ => .exn) ["B"] 0
    (by norm_num) rfl rfl

/-- C8: a cache hit is served from the cache: when id `X` is cached with
score `S`, every position holding `X` answers `S`, and neither the product
lookup nor the oracle is invoked for `X` anywhere in the batch. -/
theorem C8_cache_hit_no_calls (c : Cache) (f : ProductId → Bool)
    (o : ℕ → ℕ → OracleResult) (q : List ProductId) (X : ProductId)
    (S : Score) (j : ℕ) (hj : j < q.length) (hq : q[j] = X)
    (hX : List.lookup X c = some S) :
    (forward c f o q).response[j]? = some (some S) ∧
    (∀ x ∈ (forward c f o q).fetchCalls, x ≠ X) ∧
    (∀ e ∈ (forward c f o q).oracleCalls, e.2.2 ≠ X) := by
  have hsnd : ∀ x, x ∈ (tasksOf c f q).map Prod.snd → x ≠ X := by
    intro x hx hxX
    obtain ⟨hlx, -⟩ := tasksOf_snd_mem c f q x hx
    rw [hxX, hX] at hlx
    exact absurd hlx (by simp)
  refine ⟨?_, ?_, ?_⟩
  · have hnt : j ∉ (tasksOf c f q).map Prod.fst := by
      rw [tasksOf_fst_mem c f q j hj]
      rintro ⟨hnone, -⟩
      rw [hq, hX] at hnone
      exact absurd hnone (by simp)
    rw [forward_slot_untouched c f o q j hj hnt, hq, hX]
  · intro x hx hxX
    rcases forward_fetchCalls_mem c f o q x hx with h | h
    · rw [List.mem_filter] at h
      rw [hxX, hX] at h
      exact absurd h.2 (by simp)
    · exact hsnd x h hxX
  · intro e he
    rw [forward_oracleCalls_eq] at he
    rcases List.mem_append.mp he with h | h
    · rcases List.mem_map.mp h with ⟨p, hp, rfl⟩
      exact hsnd p.2 (List.mem_map.mpr ⟨p, hp, rfl⟩)
    · rcases List.mem_map.mp h with ⟨r, hr, rfl⟩
      exact hsnd r.2.1 (retriesOf_id_mem_tasks_snd f o _ 0 r hr)

/-- C8 witness: the id `"X"` cached at 7 is answered from the cache. -/
theorem C8_cache_hit_no_calls_witness :
    (forward [("X", (7 : ℚ))] (fun _ => true) (fun _ _ => .exn)
      ["X"]).response[0]? = some (some 7) ∧
    (∀ x ∈ (forward [("X", (7 : ℚ))] (fun _ => true) (fun _ _ => .exn)
      ["X"]).fetchCalls, x ≠ "X") ∧
    (∀ e ∈ (forward [("X", (7 : ℚ))] (fun _ => true) (fun _ _ => .exn)
      ["X"]).oracleCalls, e.2.2 ≠ "X") :=
  C8_cache_hit_no_calls [("X", (7 : ℚ))] (fun _ => true) (fun _ _ => .exn)
    ["X"] "X" 7 0 (by norm_num) rfl rfl

/-- C9: starting from a cache whose scores all lie in [0, 100], every
cache entry after the batch still lies in [0, 100] (first-wave writes are
range-checked, retry writes are range-checked, the only other write is the
fallback 50.0), and every present response score lies in [0, 100] too. -/
theorem C9_scores_bounded (c : Cache) (f : ProductId → Bool)
    (o : ℕ → ℕ → OracleResult) (q : List ProductId)
    (hc : ∀ p ∈ c, 0 ≤ p.2 ∧ p.2 ≤ 100) :
    (∀ p ∈ (forward c f o q).cache, 0 ≤ p.2 ∧ p.2 ≤ 100) ∧
    (∀ os ∈ (forward c f o q).response, ∀ s, os = some s →
      0 ≤ s ∧ s ≤ 100) := by
  constructor
  · intro p hp
    rw [forward_cache_eq] at hp
    rcases List.mem_append.mp hp with h | h
    · exact (wave2Writes_mem o _ 0 p h).2
    · rcases List.mem_append.mp h with h' | h'
      · exact (wave1Writes_mem o _ 0 p h').2
      · exact hc p h'
  · intro os hos s hs
    simp only [forward] at hos
    rcases runWave2_preds_mem o _ 0 _ os hos with h | h
    · rcases runWave1_preds_mem f o _ 0 _ os h with h' | h'
      · rcases List.mem_map.mp h' with ⟨id, -, hlk⟩
        rw [hs] at hlk
        exact hc (id, s) (lookup_mem hlk)
      · obtain ⟨t, ht, hb⟩ := h'
        rw [hs] at ht
        obtain rfl : t = s := by simpa using ht.symm
        exact hb
    · obtain ⟨t, ht, hb⟩ := h
      rw [hs] at ht
      obtain rfl : t = s := by simpa using ht.symm
      exact hb

/-- C9 witness: the batch `["D"]` against an empty cache ends with a cache
and response whose scores are all in range. -/
theorem C9_scores_bounded_witness :
    (∀ p ∈ (forward [] (fun _ => true) (fun _ _ => .exn) ["D"]).cache,
      0 ≤ p.2 ∧ p.2 ≤ 100) ∧
    (∀ os ∈ (forward [] (fun _ => true) (fun _ _ => .exn) ["D"]).response,
      ∀ s, os = some s → 0 ≤ s ∧ s ≤ 100) :=
  C9_scores_bounded [] (fun _ => true) (fun _ _ => .exn) ["D"]
    (by simp)

lemma countP_fst_le_one {α β : Type} [BEq α] [LawfulBEq α] :
    ∀ (l : List (α × β)), (l.map Prod.fst).Nodup → ∀ i : α,
    l.countP (fun p => p.1 == i) ≤ 1 := by
  intro l
  induction l with
  | nil => intro _ i; simp
  | cons p l ih =>
    intro hnd i
    obtain ⟨a, b⟩ := p
    simp only [List.map_cons, List.nodup_cons] at hnd
    rw [List.countP_cons]
    rcases hab : (a == i) with _ | _
    · simpa [hab] using ih hnd.2 i
    · obtain rfl : a = i := eq_of_beq hab
      have hz : l.countP (fun p => p.1 == a) = 0 := by
        rw [List.countP_eq_zero]
        intro p hp
        simp only [beq_iff_eq]
        intro hpa
        exact hnd.1 (List.mem_map.mpr ⟨p, hp, hpa⟩)
      simp [hz, hab]

lemma countP_fst_eq_one {α β : Type} [BEq α] [LawfulBEq α] :
    ∀ (l : List (α × β)), (l.map Prod.fst).Nodup → ∀ (i : α) (x : β),
    (i, x) ∈ l → l.countP (fun p => p.1 == i) = 1 := by
  intro l
  induction l with
  | nil => intro _ i x h; simp at h
  | cons p l ih =>
    intro hnd i x hm
    obtain ⟨a, b⟩ := p
    simp only [List.map_cons, List.nodup_cons] at hnd
    rw [List.countP_cons]
    rcases List.mem_cons.mp hm with h' | h'
    · obtain ⟨rfl, rfl⟩ := Prod.mk.injEq .. ▸ h'
      have hz : l.countP (fun p => p.1 == i) = 0 := by
        rw [List.countP_eq_zero]
        intro p hp
        simp only [beq_iff_eq]
        intro hpa
        exact hnd.1 (List.mem_map.mpr ⟨p, hp, hpa⟩)
      simp [hz]
    · have hone := ih hnd.2 i x h'
      have hne : (a == i) = false := by
        rcases hab : (a == i) with _ | _
        · rfl
        · obtain rfl : a = i := eq_of_beq hab
          exact absurd (List.mem_map.mpr ⟨(a, x), h', rfl⟩) hnd.1
      simp [hone, hne]

lemma retriesOf_fst_nodup (f : ProductId → Bool) (o : ℕ → ℕ → OracleResult)
    (ts : List (ℕ × ProductId)) (k : ℕ) (hnd : (ts.map Prod.fst).Nodup) :
    ((retriesOf f o k ts).map Prod.fst).Nodup :=
  (retriesOf_fst_sublist f o ts k).nodup hnd

/-- C4: per batch item, the oracle is invoked at most twice across both
waves (no third dispatch exists), and an item whose first-wave attempt
fails its validation is invoked exactly twice — once in each wave. -/
theorem C4_at_most_two_invocations (c : Cache) (f : ProductId → Bool)
    (o : ℕ → ℕ → OracleResult) (q : List ProductId) :
    (∀ i, (forward c f o q).oracleCalls.countP
      (fun e => e.2.1 == i) ≤ 2) ∧
    (∀ ts₁ j id ts₂, tasksOf c f q = ts₁ ++ (j, id) :: ts₂ →
      firstScore (o 0 ts₁.length) = none →
      (forward c f o q).oracleCalls.countP (fun e => e.2.1 == j) = 2) := by
  have hnd := tasksOf_fst_nodup c f q
  have hndr := retriesOf_fst_nodup f o (tasksOf c f q) 0 hnd
  constructor
  · intro i
    rw [forward_oracleCalls_eq, List.countP_append]
    have h1 : ((tasksOf c f q).map (fun p => ((0 : ℕ), p.1, p.2))).countP
        (fun e => e.2.1 == i) =
        (tasksOf c f q).countP (fun p => p.1 == i) := by
      rw [List.countP_map]
      apply List.countP_congr
      intro p hp
      simp [Function.comp]
    have h2 : ((retriesOf f o 0 (tasksOf c f q)).map
        (fun r => ((1 : ℕ), r.1, r.2.1))).countP (fun e => e.2.1 == i) =
        (retriesOf f o 0 (tasksOf c f q)).countP (fun r => r.1 == i) := by
      rw [List.countP_map]
      apply List.countP_congr
      intro r hr
      simp [Function.comp]
    rw [h1, h2]
    have := countP_fst_le_one (tasksOf c f q) hnd i
    have := countP_fst_le_one (retriesOf f o 0 (tasksOf c f q)) hndr i
    omega
  · intro ts₁ j id ts₂ hdec hfs
    have hmem : (j, id) ∈ tasksOf c f q := by
      rw [hdec]
      exact List.mem_append.mpr (Or.inr (List.mem_cons_self _ _))
    obtain ⟨-, -, -, hf⟩ := (tasksOf_mem c f q j id).mp hmem
    have hrmem : (j, id, ts₁.length) ∈ retriesOf f o 0 (tasksOf c f q) := by
      rw [hdec, retriesOf_decomp_fail f o ts₁ j id ts₂ hfs hf]
      exact List.mem_append.mpr (Or.inr (List.mem_cons_self _ _))
    rw [forward_oracleCalls_eq, List.countP_append]
    have h1 : ((tasksOf c f q).map (fun p => ((0 : ℕ), p.1, p.2))).countP
        (fun e => e.2.1 == j) =
        (tasksOf c f q).countP (fun p => p.1 == j) := by
      rw [List.countP_map]
      apply List.countP_congr
      intro p hp
      simp [Function.comp]
    have h2 : ((retriesOf f o 0 (tasksOf c f q)).map
        (fun r => ((1 : ℕ), r.1, r.2.1))).countP (fun e => e.2.1 == j) =
        (retriesOf f o 0 (tasksOf c f q)).countP (fun r => r.1 == j) := by
      rw [List.countP_map]
      apply List.countP_congr
      intro r hr
      simp [Function.comp]
    rw [h1, h2, countP_fst_eq_one (tasksOf c f q) hnd j id hmem,
      countP_fst_eq_one (retriesOf f o 0 (tasksOf c f q)) hndr j
        (id, ts₁.length) hrmem]

/-- C4 witness: the one-element batch `["D"]` with a failing oracle makes
exactly two oracle calls for position 0 and at most two for any position. -/
theorem C4_at_most_two_invocations_witness :
    (∀ i, (forward [] (fun _ => true) (fun _ _ => .exn)
      ["D"]).oracleCalls.countP (fun e => e.2.1 == i) ≤ 2) ∧
    (∀ ts₁ j id ts₂,
      tasksOf [] (fun _ => true) ["D"] = ts₁ ++ (j, id) :: ts₂ →
      firstScore ((fun (_ _ : ℕ) => OracleResult.exn) 0 ts₁.length) = none →
      (forward [] (fun _ => true) (fun _ _ => .exn)
        ["D"]).oracleCalls.countP (fun e => e.2.1 == j) = 2) :=
  C4_at_most_two_invocations [] (fun _ => true) (fun _ _ => .exn) ["D"]

/-- C5 counterexample: in the batch `["X", "X"]` with `"X"` uncached and
found, the orchestrator launches two concurrent first-wave oracle
invocations for the same id `"X"` — the claimed per-id mutual exclusion
within a batch is false. -/
theorem C5_counterexample :
    ¬ ((forward [] (fun _ => true) (fun _ _ => .exn)
      ["X", "X"]).oracleCalls.countP
        (fun e => e.1 == 0 && e.2.2 == "X") ≤ 1) := by
  decide

/-- C5 amended: at most one first-wave dispatch is launched per batch
position, and the number of first-wave dispatches for an id equals the
number of its uncached, found occurrences in the batch — so a duplicated
uncached id gets one concurrent in-flight invocation per occurrence. -/
theorem C5_amended_dispatch_per_position (c : Cache) (f : ProductId → Bool)
    (o : ℕ → ℕ → OracleResult) (q : List ProductId) :
    (∀ i, (forward c f o q).oracleCalls.countP
      (fun e => e.1 == 0 && e.2.1 == i) ≤ 1) ∧
    (∀ id, (forward c f o q).oracleCalls.countP
      (fun e => e.1 == 0 && e.2.2 == id) =
      (q.filter (fun x => (List.lookup x c).isNone && f x)).count id) := by
  have hnd := tasksOf_fst_nodup c f q
  constructor
  · intro i
    rw [forward_oracleCalls_eq, List.countP_append]
    have h1 : ((tasksOf c f q).map (fun p => ((0 : ℕ), p.1, p.2))).countP
        (fun e => e.1 == 0 && e.2.1 == i) =
        (tasksOf c f q).countP (fun p => p.1 == i) := by
      rw [List.countP_map]
      apply List.countP_congr
      intro p hp
      simp [Function.comp]
    have h2' : ((retriesOf f o 0 (tasksOf c f q)).map
        (fun r => ((1 : ℕ), r.1, r.2.1))).countP
        (fun e => e.1 == 0 && e.2.1 == i) = 0 := by
      rw [List.countP_eq_zero]
      intro e he
      rcases List.mem_map.mp he with ⟨r, -, rfl⟩
      simp
    rw [h1, h2']
    have := countP_fst_le_one (tasksOf c f q) hnd i
    omega
  · intro id
    rw [forward_oracleCalls_eq, List.countP_append]
    have h1 : ((tasksOf c f q).map (fun p => ((0 : ℕ), p.1, p.2))).countP
        (fun e => e.1 == 0 && e.2.2 == id) =
        (tasksOf c f q).countP (fun p => p.2 == id) := by
      rw [List.countP_map]
      apply List.countP_congr
      intro p hp
      simp [Function.comp]
    have h2 : ((retriesOf f o 0 (tasksOf c f q)).map
        (fun r => ((1 : ℕ), r.1, r.2.1))).countP
        (fun e => e.1 == 0 && e.2.2 == id) = 0 := by
      rw [List.countP_eq_zero]
      intro e he
      rcases List.mem_map.mp he with ⟨r, -, rfl⟩
      simp
    have h3 : (tasksOf c f q).countP (fun p => p.2 == id) =
        ((tasksOf c f q).map Prod.snd).countP (fun x => x == id) := by
      rw [List.countP_map]
      apply List.countP_congr
      intro p hp
      simp [Function.comp]
    rw [h1, h2, h3]
    simp only [tasksOf, partitionAux_map_snd c f q 0, List.count_eq_countP,
      Nat.add_zero]

end CheckerChain
